import Mathlib

/-!
Shallow embedding of the ChebTools `ChebyshevExpansion` type
(src/main.cpp and src/include/ChebTools/ChebTools.h), with the C++ `double`
arithmetic modelled exactly over `ℚ`.  The Eigen eigenvalue solver is an
external collaborator: where the source consumes its output, the eigenvalue
list is a parameter of the embedded function.
-/

set_option autoImplicit false
set_option maxRecDepth 10000

/-- The expansion value type: coefficient vector `m_c` plus domain bounds
`m_xmin`, `m_xmax` (src/include/ChebTools/ChebTools.h lines 13-35 and
src/main.cpp lines 29-49). -/
structure ChebyshevExpansion where
  c : List ℚ
  xmin : ℚ
  xmax : ℚ
  deriving DecidableEq, Repr

/-- The constructor `ChebyshevExpansion(c, xmin, xmax)` (src/main.cpp line 40,
src/include/ChebTools/ChebTools.h line 26): it stores the three arguments and
resizes the recurrence buffer; it contains no validation of any kind. -/
def mkExpansion (c : List ℚ) (xmin xmax : ℚ) : ChebyshevExpansion :=
  { c := c, xmin := xmin, xmax := xmax }

/-- The Chebyshev polynomials of the first kind on the canonical domain,
`T 0 = 1`, `T 1 = x`, `T (n+2) = 2 x T (n+1) - T n`.  This is the
specification-side basis used to state what the evaluators compute. -/
def chebT (xs : ℚ) : ℕ → ℚ
  | 0 => 1
  | 1 => xs
  | n + 2 => 2 * xs * chebT xs (n + 1) - chebT xs n

/-- Scaling of a real-world abscissa into the canonical domain,
`xscaled = (2 x - (xmax + xmin)) / (xmax - xmin)` (src/main.cpp line 101). -/
def xscale (xmin xmax x : ℚ) : ℚ := (2 * x - (xmax + xmin)) / (xmax - xmin)

/-- Inverse map back to real-world coordinates,
`x = ((xmax - xmin) * xscaled + (xmax + xmin)) / 2` (src/main.cpp line 162). -/
def xinv (xmin xmax s : ℚ) : ℚ := ((xmax - xmin) * s + (xmax + xmin)) / 2

/-- The recurrence buffer `o` filled by the loop in `y` (src/main.cpp lines
102-107): `o(0) = 1`, `o(1) = xscaled`, and for `n = 1 .. Norder-1`,
`o(n+1) = 2 * xscaled * o(n) - o(n-1)`. -/
def recurrence_buffer (xscaled : ℚ) (Norder : ℕ) : List ℚ :=
  (List.range' 1 (Norder - 1)).foldl
    (fun o n => o ++ [2 * xscaled * o.getD n 0 - o.getD (n - 1) 0]) [1, xscaled]

/-- `m_c.dot(o)` (src/main.cpp line 108). -/
def dot (a b : List ℚ) : ℚ := (List.zipWith (· * ·) a b).sum

/-- Scalar evaluation `y(const double x)` (src/main.cpp lines 97-109): scale
`x` into `[-1,1]`, fill the recurrence buffer, return the dot product with the
coefficients.  The write `o(1) = xscaled` is unconditional and
`m_recurrence_buffer` has exactly `m_c.size()` entries (`resize()`, lines
35-37), so for `Norder = 0` (a constant expansion, length-1 buffer) that
write is out of bounds — undefined behavior, modelled as `none`. -/
def ChebyshevExpansion.y (e : ChebyshevExpansion) (x : ℚ) : Option ℚ :=
  let Norder := e.c.length - 1
  let xscaled := (2 * x - (e.xmax + e.xmin)) / (e.xmax - e.xmin)
  if Norder = 0 then none
  else some (dot e.c (recurrence_buffer xscaled Norder))

/-- Batched evaluation at pre-scaled abscissas, `y_xscaled(const vectype &)`
(src/main.cpp lines 116-129).  The source fills the matrix `A` column by
column with the same three-term recurrence and returns `A * m_c`; row `i` of
that product is the dot product of the coefficient vector with the recurrence
buffer at `xscaled(i)`.  The write `A.col(1) = xscaled` is unconditional and
`A` has `Norder + 1` columns, so for `Norder = 0` it is out of bounds —
undefined behavior, modelled as `none`. -/
def ChebyshevExpansion.y_xscaled (e : ChebyshevExpansion) (xscaled : List ℚ) : Option (List ℚ) :=
  let Norder := e.c.length - 1
  if Norder = 0 then none
  else some (xscaled.map (fun s => dot e.c (recurrence_buffer s Norder)))

/-- Batched evaluation `y(const vectype &x)` (src/main.cpp lines 110-115):
scale every abscissa into `[-1,1]`, then call `y_xscaled`. -/
def ChebyshevExpansion.yVec (e : ChebyshevExpansion) (x : List ℚ) : Option (List ℚ) :=
  e.y_xscaled (x.map (fun t => (2 * t - (e.xmax + e.xmin)) / (e.xmax - e.xmin)))

/-- The canonical Chebyshev-basis sum `Σ_k c_k T_k(xs)`: the specification-side
meaning of evaluating an expansion at a canonical abscissa. -/
def chebSum (c : List ℚ) (xs : ℚ) : ℚ :=
  ∑ k in Finset.range c.length, c.getD k 0 * chebT xs k

/-- Auxiliary sequence for the Clenshaw development: `chebSeq xs t0 t1` is the
solution of the Chebyshev recurrence with seeds `t0`, `t1`. -/
def chebSeq (xs : ℚ) : ℚ → ℚ → ℕ → ℚ
  | t0, _, 0 => t0
  | t0, t1, n + 1 => chebSeq xs t1 (2 * xs * t1 - t0) n

/-- Modelled from the spec: `y_Clenshaw` is declared in
src/include/ChebTools/ChebTools.h line 58 but its implementation is not under
src/.  Following section 4.3 of the spec, this is the Clenshaw backward
recurrence `u_k = 2 * xscaled * u_(k+1) - u_(k+2) + c_k` run from `k = N` down
to `k = 0`; `clpair` returns `(u_k, u_(k+1))` for the processed suffix. -/
def clpair (xs : ℚ) : List ℚ → ℚ × ℚ
  | [] => (0, 0)
  | ck :: rest => (2 * xs * (clpair xs rest).1 - (clpair xs rest).2 + ck, (clpair xs rest).1)

/-- Modelled from the spec: scalar Clenshaw evaluation (section 4.3).  The
abscissa is scaled exactly as in `y`, and the backward recurrence is summed to
`u_0 - xscaled * u_1`. -/
def ChebyshevExpansion.y_Clenshaw (e : ChebyshevExpansion) (x : ℚ) : ℚ :=
  let xscaled := (2 * x - (e.xmax + e.xmin)) / (e.xmax - e.xmin)
  (clpair xscaled e.c).1 - xscaled * (clpair xscaled e.c).2

/-- `A(i, j) = v` on a matrix modelled as a total function. -/
def matSet (A : ℕ → ℕ → ℚ) (i j : ℕ) (v : ℚ) : ℕ → ℕ → ℚ :=
  fun r s => if r = i ∧ s = j then v else A r s

/-- `A(i, j) -= v` on a matrix modelled as a total function. -/
def matSub (A : ℕ → ℕ → ℚ) (i j : ℕ) (v : ℚ) : ℕ → ℕ → ℚ :=
  fun r s => if r = i ∧ s = j then A r s - v else A r s

/-- `std::size_t` subtraction `a - b` with 64-bit wraparound, as performed on
the index expressions `N-1` and `N-2` in `companion_matrix`. -/
def stWrap (a b : ℕ) : ℕ := (a + 2 ^ 64 - b) % 2 ^ 64

/-- `companion_matrix` (src/main.cpp lines 134-151) for a coefficient function
`c` with degree `N = m_c.size() - 1`: start from the zero `N x N` matrix, set
`A(0,1) = 1`, set `A(N-1,N-2) = 0.5`, subtract `c(k)/(2 c(N))` from
`A(N-1,k)` for `k = 0..N-1`, and set `A(j,j-1) = A(j,j+1) = 0.5` for the
interior rows `j = 1..N-2`.  Entries are kept as a total function on `ℕ × ℕ`;
the written index pairs are recorded separately in `companion_accesses`. -/
def companion_matrix (c : ℕ → ℚ) (N : ℕ) : ℕ → ℕ → ℚ :=
  let A0 : ℕ → ℕ → ℚ := fun _ _ => 0
  let A1 := matSet A0 0 1 1
  let A2 := matSet A1 (stWrap N 1) (stWrap N 2) (1 / 2)
  let A3 := (List.range N).foldl (fun A k => matSub A (stWrap N 1) k (c k / (2 * c N))) A2
  (List.range' 1 (N - 2)).foldl
    (fun A j => matSet (matSet A j (j - 1) (1 / 2)) j (j + 1) (1 / 2)) A3

/-- The (row, column) index pairs written by `companion_matrix`
(src/main.cpp lines 134-151), in program order: `A(0,1)`, `A(N-1,N-2)` (both
subtractions performed on `std::size_t`, hence `stWrap`), the last-row
correction `A(N-1,k)` for `k = 0..N-1`, and the interior pairs
`A(j,j-1)`, `A(j,j+1)` for `j = 1..N-2`.  A pair is in bounds for the
`N x N` matrix `Eigen::MatrixXd::Zero(N, N)` iff both components are `< N`. -/
def companion_accesses (N : ℕ) : List (ℕ × ℕ) :=
  [(0, 1), (stWrap N 1, stWrap N 2)]
    ++ (List.range N).map (fun k => (stWrap N 1, k))
    ++ (List.range' 1 (N - 2)).flatMap (fun j => [(j, j - 1), (j, j + 1)])

/-- `DBL_EPSILON` of IEEE-754 binary64, `2^-52`, used in the imaginary-part
tolerance of `real_roots` (src/main.cpp line 160). -/
def DBL_EPSILON : ℚ := 1 / 2 ^ 52

/-- `real_roots(bool only_in_domain)` (src/main.cpp lines 152-170).  The
eigenvalues of the companion matrix are produced by the external Eigen solver;
they are passed in as the list `eig` of (real part, imaginary part) pairs.
Each eigenvalue with `|imag| < 10 * DBL_EPSILON` is rescaled by the inverse
domain map and kept if `only_in_domain` is false or the rescaled value lies in
`[xmin, xmax]`. -/
def real_roots (eig : List (ℚ × ℚ)) (xmin xmax : ℚ) (only_in_domain : Bool) : List ℚ :=
  eig.foldl
    (fun roots ev =>
      if |ev.2| < 10 * DBL_EPSILON then
        let x := ((xmax - xmin) * ev.1 + (xmax + xmin)) / 2
        if only_in_domain = false ∨ (x ≤ xmax ∧ x ≥ xmin) then roots ++ [x] else roots
      else roots)
    []

/-- The buffer indices written by the scalar evaluator `y` (src/main.cpp lines
103-106) for a coefficient vector of length `len`: `o(0)` and `o(1)`
unconditionally, then `o(n+1)` for `n = 1..Norder-1` where
`Norder = len - 1`.  The buffer `m_recurrence_buffer` has exactly `len`
entries (`resize()`, src/main.cpp lines 35-37), so a write is in bounds iff
its index is `< len`.  The batched evaluator `y_xscaled` (lines 122-127)
writes the same index set as column indices of `A`, which has `Norder + 1`
columns. -/
def recurrence_write_indices (len : ℕ) : List ℕ :=
  [0, 1] ++ (List.range' 1 (len - 1 - 1)).map (fun n => n + 1)

/-- Binary `operator+` of the prototype class (src/main.cpp lines 52-60): if
the two coefficient vectors differ in length it throws
`std::exception("lengths not the same")`; otherwise it returns a new expansion
built from `ce2.coef() + m_c` with the constructor's default domain bounds
`(-1, 1)`. -/
def mainPlus (ce ce2 : ChebyshevExpansion) : Except String ChebyshevExpansion :=
  if ce.c.length ≠ ce2.c.length then Except.error "lengths not the same"
  else Except.ok { c := List.zipWith (· + ·) ce2.c ce.c, xmin := -1, xmax := 1 }

/-- In-place `operator+=` of the prototype class (src/main.cpp lines 61-73):
`m_c.head(Nmin) += donor.coef().head(Nmin)`; if the donor is longer,
`m_c.resize(Ndonor)` reallocates (Eigen `resize` does not preserve the stored
coefficients, so the summed head is left uninitialized, modelled as `none`)
and then `m_c.tail(Nmax-Nmin) = donor.coef().tail(Nmax-Nmin)`.  The resulting
coefficient vector is returned entrywise as `Option ℚ`, with `none` standing
for an uninitialized entry. -/
def mainPlusEq (ce donor : ChebyshevExpansion) : List (Option ℚ) :=
  let N1 := ce.c.length
  let Ndonor := donor.c.length
  let Nmin := min N1 Ndonor
  let summed := List.zipWith (· + ·) (ce.c.take Nmin) (donor.c.take Nmin)
  if Ndonor > N1 then
    List.replicate Nmin (none : Option ℚ) ++ (donor.c.drop Nmin).map some
  else
    summed.map some ++ (ce.c.drop Nmin).map some

/-- The friend `operator*(double value, const ChebyshevExpansion &ce)` of the
header class (src/include/ChebTools/ChebTools.h lines 48-50): coefficients are
scaled and the result is constructed with `ce.m_xmin, ce.m_xmax`. -/
def friendMulScalar (value : ℚ) (ce : ChebyshevExpansion) : ChebyshevExpansion :=
  { c := ce.c.map (· * value), xmin := ce.xmin, xmax := ce.xmax }

/-- The member `operator*(double value)` of the prototype class (src/main.cpp
lines 74-80): it returns `ChebyshevExpansion(std::move(m_c*value))`, i.e. the
constructor is called with its default domain arguments `(-1, 1)`. -/
def mainMulScalar (ce : ChebyshevExpansion) (value : ℚ) : ChebyshevExpansion :=
  { c := ce.c.map (· * value), xmin := -1, xmax := 1 }

/-- The friend `operator*(double value, const ChebyshevExpansion &ce)` of the
prototype class (src/main.cpp lines 86-92): it returns
`ChebyshevExpansion(std::move(ce.coef()*value))`, again with the default
domain `(-1, 1)`. -/
def mainFriendMulScalar (value : ℚ) (ce : ChebyshevExpansion) : ChebyshevExpansion :=
  { c := ce.c.map (· * value), xmin := -1, xmax := 1 }

/-- Modelled from the spec: `operator*(const ChebyshevExpansion &)` is
declared in src/include/ChebTools/ChebTools.h lines 43-44 but its
implementation is not under src/.  Following section 4.2 of the spec, each
coefficient pair `(c1[i], c2[j])` contributes `c1[i]*c2[j]/2` to output index
`i+j` and to output index `|i-j|`, and the result has
`len(c1)+len(c2)-1` coefficients. -/
def mulCheb (c1 c2 : List ℚ) : List ℚ :=
  (List.range (c1.length + c2.length - 1)).map fun k =>
    ∑ i in Finset.range c1.length, ∑ j in Finset.range c2.length,
      ((if i + j = k then c1.getD i 0 * c2.getD j 0 / 2 else 0)
        + (if Nat.dist i j = k then c1.getD i 0 * c2.getD j 0 / 2 else 0))


/-- The companion matrix exactly as claim C1 words it (specification side,
for comparison with `companion_matrix`): first row `[0,1,0,...]`; interior
rows `j` (`1 ≤ j ≤ N-2`) carry `0.5` at positions `j-1` and `j+1` and zero
elsewhere; the last row carries `0.5` at position `N-2` plus the correction
`-c[k]/(2*c[N])` added at every position `k`. -/
def claimed_companion (c : ℕ → ℚ) (N i j : ℕ) : ℚ :=
  if i = 0 then (if j = 1 then 1 else 0)
  else if i ≤ N - 2 then (if j = i - 1 ∨ j = i + 1 then 1 / 2 else 0)
  else (if j = N - 2 then 1 / 2 else 0) - c j / (2 * c N)

/-! ## Theorems -/

/-- Claim C2 (code bug evidence).  The binary `operator+` of src/main.cpp
lines 52-60 does not implement the length-reconciliation rule: on the
repository's own test vectors `[1,2,3,4]` and `[0.1,0.2,0.3]` on domain
`[0.1, 3.8]` (src/tests/tests.cpp lines 259-276) it throws
"lengths not the same" instead of returning `[1.1, 2.2, 3.3, 4]`.  The
in-place `operator+=` implements the claimed rule only when the donor is not
longer: with the longer donor `[1,2,3,4]` added onto `[0.1,0.2,0.3]`, the
destructive `m_c.resize(Ndonor)` discards the three summed coefficients
(uninitialized entries, `none`) and only the copied tail `4` is defined. -/
theorem C2_addition_theorem :
    mainPlus (mkExpansion [1, 2, 3, 4] (1/10) (19/5)) (mkExpansion [1/10, 1/5, 3/10] (1/10) (19/5))
        = Except.error "lengths not the same"
      ∧ mainPlusEq (mkExpansion [1, 2, 3, 4] (1/10) (19/5))
          (mkExpansion [1/10, 1/5, 3/10] (1/10) (19/5))
        = [some (11/10), some (11/5), some (33/10), some 4]
      ∧ mainPlusEq (mkExpansion [1/10, 1/5, 3/10] (1/10) (19/5))
          (mkExpansion [1, 2, 3, 4] (1/10) (19/5))
        = [none, none, none, some 4] := by
  refine ⟨rfl, by norm_num [mainPlusEq, mkExpansion], ?_⟩
  norm_num [mainPlusEq, mkExpansion, List.replicate]

/-- Claim C3 (code bug evidence).  For a linear expansion (coefficient length
2, degree `N = 1`) the companion matrix is `Eigen::MatrixXd::Zero(1, 1)`, yet
the general construction of src/main.cpp lines 134-151 writes `A(0, 1)`
(column 1 of a 1-column matrix) and `A(N-1, N-2)` where the `std::size_t`
expression `N-2` wraps to `2^64 - 1`: both accesses are out of the 1x1
bounds, so the "same general machinery" cannot produce the root `-c0/c1`
for a linear expansion such as `[0, 1]` on `[-1, 1]`
(src/tests/tests.cpp lines 537-547). -/
theorem C3_linear_companion_oob :
    ((0, 1) ∈ companion_accesses 1 ∧ ¬ (1 : ℕ) < 1)
      ∧ ((0, stWrap 1 2) ∈ companion_accesses 1
          ∧ stWrap 1 2 = 2 ^ 64 - 1 ∧ ¬ stWrap 1 2 < 1) := by
  exact ⟨⟨by decide, by decide⟩, ⟨by decide, by decide, by decide⟩⟩

/-- Claim C6 (code bug evidence).  For a constant expansion the coefficient
vector has length 1, so `m_recurrence_buffer` has exactly one entry, yet the
scalar evaluator `y` (src/main.cpp lines 97-109) unconditionally executes
`o(1) = xscaled` — the write index 1 is out of bounds for the length-1
buffer; the batched `y_xscaled` (lines 116-129) likewise writes column 1 of a
matrix with `Norder + 1 = 1` columns.  There is no `Norder == 0` guard. -/
theorem C6_constant_eval_unguarded :
    recurrence_write_indices 1 = [0, 1]
      ∧ ∃ idx ∈ recurrence_write_indices 1, ¬ idx < 1 := by
  refine ⟨by decide, 1, by decide, by decide⟩

/-- Claim C8 (counterexample).  Constructing with `xmin = 1 >= xmax = -1`
does not fail: the constructor returns an expansion whose stored domain is
inverted, so no precondition violation is signaled at the construction
boundary. -/
theorem C8_counterexample :
    mkExpansion [1] 1 (-1) = { c := [1], xmin := 1, xmax := -1 }
      ∧ ¬ (mkExpansion [1] 1 (-1)).xmin < (mkExpansion [1] 1 (-1)).xmax := by
  refine ⟨rfl, by decide⟩

/-- Claim C8 (amended).  The constructor performs no validation at all: for
every coefficient list and every pair of bounds — including `xmin ≥ xmax` —
it returns normally, storing the coefficients and both bounds unchanged. -/
theorem C8_amended_no_validation (c : List ℚ) (xmin xmax : ℚ) :
    (mkExpansion c xmin xmax).c = c
      ∧ (mkExpansion c xmin xmax).xmin = xmin
      ∧ (mkExpansion c xmin xmax).xmax = xmax :=
  ⟨rfl, rfl, rfl⟩

/-- Claim C9 (code bug evidence).  The header's friend
`operator*(double, const ChebyshevExpansion&)` preserves the operand's domain
bounds for every scalar and every expansion, but the prototype's member
`operator*(double)` and friend `operator*` in src/main.cpp construct the
result with the default bounds `(-1, 1)`: multiplying the expansion `[1, 2]`
on `[0, 10]` by 2 yields an expansion on `(-1, 1)`, not on `(0, 10)`. -/
theorem C9_scalar_mul_domain :
    (∀ (value : ℚ) (ce : ChebyshevExpansion),
        (friendMulScalar value ce).xmin = ce.xmin
          ∧ (friendMulScalar value ce).xmax = ce.xmax)
      ∧ mainMulScalar (mkExpansion [1, 2] 0 10) 2 = mkExpansion [2, 4] (-1) 1
      ∧ mainFriendMulScalar 2 (mkExpansion [1, 2] 0 10) = mkExpansion [2, 4] (-1) 1
      ∧ ¬ (mainMulScalar (mkExpansion [1, 2] 0 10) 2).xmin
          = (mkExpansion [1, 2] 0 10).xmin := by
  exact ⟨fun v ce => ⟨rfl, rfl⟩, by norm_num [mainMulScalar, mkExpansion],
    by norm_num [mainFriendMulScalar, mkExpansion], by decide⟩

/-- Pointwise evaluation of `matSet`. -/
theorem matSet_apply (A : ℕ → ℕ → ℚ) (i j : ℕ) (v : ℚ) (r s : ℕ) :
    matSet A i j v r s = if r = i ∧ s = j then v else A r s := rfl

/-- Pointwise evaluation of `matSub`. -/
theorem matSub_apply (A : ℕ → ℕ → ℚ) (i j : ℕ) (v : ℚ) (r s : ℕ) :
    matSub A i j v r s = if r = i ∧ s = j then A r s - v else A r s := rfl

/-- `std::size_t` subtraction agrees with truncated subtraction in the
non-wrapping regime. -/
theorem stWrap_eq {a b : ℕ} (hb : b ≤ a) (ha : a < 2 ^ 64) : stWrap a b = a - b := by
  unfold stWrap; omega

/-- Effect of the last-row correction loop of `companion_matrix` on an
arbitrary entry. -/
theorem foldl_matSub_range (A : ℕ → ℕ → ℚ) (row : ℕ) (g : ℕ → ℚ) (m r s : ℕ) :
    ((List.range m).foldl (fun B k => matSub B row k (g k)) A) r s
      = if r = row ∧ s < m then A r s - g s else A r s := by
  induction m with
  | zero => simp
  | succ n ih =>
    rw [List.range_succ, List.foldl_append, List.foldl_cons, List.foldl_nil, matSub_apply, ih]
    by_cases hr : r = row
    · subst hr
      by_cases hs : s = n
      · subst hs
        simp [Nat.lt_irrefl, Nat.lt_succ_self]
      · have hlt : s < n + 1 ↔ s < n := by omega
        simp [hs, hlt]
    · simp [hr]

/-- Effect of the interior-row loop of `companion_matrix` on an arbitrary
entry. -/
theorem foldl_interior (A : ℕ → ℕ → ℚ) (L : List ℕ) (r s : ℕ) :
    (L.foldl (fun B j => matSet (matSet B j (j - 1) (1 / 2)) j (j + 1) (1 / 2)) A) r s
      = if r ∈ L ∧ (s = r - 1 ∨ s = r + 1) then 1 / 2 else A r s := by
  induction L using List.reverseRecOn with
  | nil => simp
  | append_singleton l j ih =>
    rw [List.foldl_append, List.foldl_cons, List.foldl_nil, matSet_apply, matSet_apply, ih]
    by_cases hr : r = j
    · subst hr
      by_cases h1 : s = r + 1
      · simp [h1]
      · by_cases h0 : s = r - 1
        · simp [h0, h1]
        · simp [h0, h1]
    · have hmem : r ∈ l ++ [j] ↔ r ∈ l := by simp [hr]
      simp [hr, hmem]

/-- Entry-level characterization of `companion_matrix` for degree `N ≥ 2`:
it agrees with the matrix worded in claim C1 at every in-bounds position. -/
theorem companion_entries (c : ℕ → ℚ) (N : ℕ) (hN : 2 ≤ N) (hsz : N < 2 ^ 64) :
    ∀ i j, i < N → j < N → companion_matrix c N i j = claimed_companion c N i j := by
  intro i j hi hj
  have hW1 : stWrap N 1 = N - 1 := stWrap_eq (by omega) hsz
  have hW2 : stWrap N 2 = N - 2 := stWrap_eq (by omega) hsz
  show (List.range' 1 (N - 2)).foldl
      (fun A j => matSet (matSet A j (j - 1) (1 / 2)) j (j + 1) (1 / 2))
      ((List.range N).foldl
        (fun A k => matSub A (stWrap N 1) k (c k / (2 * c N)))
        (matSet (matSet (fun _ _ => 0) 0 1 1) (stWrap N 1) (stWrap N 2) (1 / 2))) i j
    = claimed_companion c N i j
  rw [foldl_interior, foldl_matSub_range, matSet_apply, matSet_apply, hW1, hW2]
  unfold claimed_companion
  have hmem : i ∈ List.range' 1 (N - 2) ↔ 1 ≤ i ∧ i < 1 + (N - 2) := List.mem_range'_1
  by_cases hi0 : i = 0
  · subst hi0
    have h1 : ¬ ((0 : ℕ) ∈ List.range' 1 (N - 2) ∧ ((j : ℕ) = 0 - 1 ∨ j = 0 + 1)) := by
      rintro ⟨hmem0, -⟩
      rw [hmem] at hmem0
      omega
    rw [if_neg h1]
    have h2 : ¬ ((0 : ℕ) = N - 1 ∧ j < N) := by omega
    rw [if_neg h2, if_pos rfl]
    have h3 : ¬ ((0 : ℕ) = N - 1 ∧ (j : ℕ) = N - 2) := by omega
    rw [if_neg h3]
    simp
  · by_cases hint : i ≤ N - 2
    · have hmem2 : i ∈ List.range' 1 (N - 2) := by rw [hmem]; omega
      have hne1 : ¬ i = N - 1 := by omega
      by_cases hadj : j = i - 1 ∨ j = i + 1
      · rw [if_pos ⟨hmem2, hadj⟩]
        simp [hi0, hint, hadj]
      · rw [if_neg fun h => hadj h.2]
        rw [if_neg fun h => hne1 h.1, if_neg fun h => hne1 h.1, if_neg fun h => hi0 h.1]
        simp [hi0, hint, hadj]
    · have hlast : i = N - 1 := by omega
      have hnm : ¬ (i ∈ List.range' 1 (N - 2) ∧ (j = i - 1 ∨ j = i + 1)) := by
        rintro ⟨hmem0, -⟩
        rw [hmem] at hmem0
        omega
      rw [if_neg hnm, if_pos ⟨hlast, hj⟩]
      by_cases hjn : j = N - 2
      · rw [if_pos ⟨hlast, hjn⟩]
        simp [hi0, hint, hjn]
      · rw [if_neg fun h => hjn h.2, if_neg fun h => hi0 h.1]
        simp [hi0, hint, hjn]

/-- The accumulator of the `real_roots` fold factors out on the left. -/
theorem real_roots_acc (eig : List (ℚ × ℚ)) (xmin xmax : ℚ) (d : Bool) (acc : List ℚ) :
    eig.foldl
      (fun roots ev =>
        if |ev.2| < 10 * DBL_EPSILON then
          let x := ((xmax - xmin) * ev.1 + (xmax + xmin)) / 2
          if d = false ∨ (x ≤ xmax ∧ x ≥ xmin) then roots ++ [x] else roots
        else roots)
      acc
      = acc ++ real_roots eig xmin xmax d := by
  induction eig generalizing acc with
  | nil => simp [real_roots]
  | cons ev rest ih =>
    show List.foldl _ _ rest = acc ++ real_roots (ev :: rest) xmin xmax d
    rw [show real_roots (ev :: rest) xmin xmax d = List.foldl _ _ rest from rfl]
    rw [ih, ih]
    rw [← List.append_assoc]
    congr 1
    simp only []
    split_ifs <;> simp

/-- `real_roots` is exactly the filter-map-filter pipeline of claim C1: keep
the eigenvalues whose imaginary part is below the tolerance, send each real
part through the inverse domain map, and (when `only_in_domain` is true) keep
exactly the images inside `[xmin, xmax]`. -/
theorem real_roots_pipeline (eig : List (ℚ × ℚ)) (xmin xmax : ℚ) :
    real_roots eig xmin xmax true
        = ((eig.filter (fun ev => decide (|ev.2| < 10 * DBL_EPSILON))).map
            (fun ev => xinv xmin xmax ev.1)).filter
              (fun x => decide (xmin ≤ x ∧ x ≤ xmax))
      ∧ real_roots eig xmin xmax false
          = (eig.filter (fun ev => decide (|ev.2| < 10 * DBL_EPSILON))).map
              (fun ev => xinv xmin xmax ev.1) := by
  constructor
  · induction eig with
    | nil => rfl
    | cons ev rest ih =>
      rw [show real_roots (ev :: rest) xmin xmax true = List.foldl _ _ rest from rfl,
        real_roots_acc, List.filter_cons]
      by_cases h1 : |ev.2| < 10 * DBL_EPSILON
      · by_cases h2 : xmin ≤ xinv xmin xmax ev.1 ∧ xinv xmin xmax ev.1 ≤ xmax
        <;> simp only [xinv] at h2
        · have hx : ((xmax - xmin) * ev.1 + (xmax + xmin)) / 2 ≤ xmax ∧
              ((xmax - xmin) * ev.1 + (xmax + xmin)) / 2 ≥ xmin := ⟨h2.2, h2.1⟩
          simp [h1, hx, h2, ih, xinv, List.filter_cons]
        · have hx : ¬ (((xmax - xmin) * ev.1 + (xmax + xmin)) / 2 ≤ xmax ∧
              ((xmax - xmin) * ev.1 + (xmax + xmin)) / 2 ≥ xmin) := fun h => h2 ⟨h.2, h.1⟩
          simp [h1, hx, h2, ih, xinv, List.filter_cons]
      · simp [h1, ih]
  · induction eig with
    | nil => rfl
    | cons ev rest ih =>
      rw [show real_roots (ev :: rest) xmin xmax false = List.foldl _ _ rest from rfl,
        real_roots_acc, List.filter_cons]
      by_cases h1 : |ev.2| < 10 * DBL_EPSILON
      · simp [h1, ih, xinv]
      · simp [h1, ih]

/-- Claim C1.  For every expansion of degree `N ≥ 2` (coefficient length
`N + 1`), `companion_matrix` is exactly the matrix described by the claim —
first row `[0,1,0,...]`, interior rows with `0.5` on the sub- and
super-diagonal, last row with `0.5` at position `N-2` plus the correction
`-c[k]/(2 c[N])` at every position `k` — and `real_roots` returns exactly the
eigenvalues (supplied by the external Eigen solver) whose imaginary part has
absolute value below `10 * DBL_EPSILON`, each mapped to real-world
coordinates by `x = ((xmax-xmin)*lambda + (xmax+xmin))/2`, with
`only_in_domain = true` keeping exactly those `x` with
`xmin ≤ x ≤ xmax`. -/
theorem C1_companion_and_real_roots (c : ℕ → ℚ) (N : ℕ) (hN : 2 ≤ N) (hsz : N < 2 ^ 64)
    (eig : List (ℚ × ℚ)) (xmin xmax : ℚ) :
    (∀ i j, i < N → j < N → companion_matrix c N i j = claimed_companion c N i j)
      ∧ real_roots eig xmin xmax true
          = ((eig.filter (fun ev => decide (|ev.2| < 10 * DBL_EPSILON))).map
              (fun ev => xinv xmin xmax ev.1)).filter
                (fun x => decide (xmin ≤ x ∧ x ≤ xmax)) :=
  ⟨companion_entries c N hN hsz, (real_roots_pipeline eig xmin xmax).1⟩

/-- Witness for claim C1 at the concrete degree-2 expansion `c k = k + 1`
with eigenvalue list `[(1/2, 0), (2, 1)]` on the domain `[-1, 1]`. -/
theorem C1_witness :
    (∀ i j, i < 2 → j < 2 →
        companion_matrix (fun k => (k : ℚ) + 1) 2 i j
          = claimed_companion (fun k => (k : ℚ) + 1) 2 i j)
      ∧ real_roots [((1 : ℚ) / 2, 0), (2, 1)] (-1) 1 true
          = (([((1 : ℚ) / 2, 0), (2, 1)].filter
              (fun ev => decide (|ev.2| < 10 * DBL_EPSILON))).map
              (fun ev => xinv (-1) 1 ev.1)).filter
                (fun x => decide ((-1 : ℚ) ≤ x ∧ x ≤ 1)) :=
  C1_companion_and_real_roots (fun k => (k : ℚ) + 1) 2 (by decide) (by decide)
    [((1 : ℚ) / 2, 0), (2, 1)] (-1) 1

/-- Claim C7.  The Chebyshev-basis product: the result length is
`len(c1) + len(c2) - 1`, the operation is commutative for any two coefficient
vectors, and on the repository's own test vectors (src/tests/tests.cpp lines
132-144) the modelled convolution — in which each pair `(c1[i], c2[j])`
contributes `c1[i]*c2[j]/2` at output indices `i+j` and `|i-j|` — reproduces
the expected coefficients `[0.75, 1.6, 1.2, 1.0, 0.85, 0.6]` exactly. -/
theorem C7_product (c1 c2 : List ℚ) :
    (mulCheb c1 c2).length = c1.length + c2.length - 1
      ∧ mulCheb c1 c2 = mulCheb c2 c1
      ∧ mulCheb [1, 2, 3, 4] [1/10, 1/5, 3/10]
          = [3/4, 8/5, 6/5, 1, 17/20, 3/5] := by
  refine ⟨by simp [mulCheb], ?_, ?_⟩
  · unfold mulCheb
    rw [Nat.add_comm c2.length c1.length]
    apply List.map_congr_left
    intro k _
    rw [Finset.sum_comm]
    apply Finset.sum_congr rfl
    intro j _
    apply Finset.sum_congr rfl
    intro i _
    rw [Nat.add_comm i j, Nat.dist_comm i j, mul_comm (c1.getD i 0) (c2.getD j 0)]
  · have hr : List.range 6 = [0, 1, 2, 3, 4, 5] := by decide
    show (List.range ([(1:ℚ), 2, 3, 4].length + [(1:ℚ)/10, 1/5, 3/10].length - 1)).map _ = _
    norm_num [hr, Finset.sum_range_succ, Nat.dist]

/-- `getD` of a mapped range evaluates the function at in-range indices. -/
theorem getD_map_range (f : ℕ → ℚ) (k m : ℕ) (h : k < m) :
    ((List.range m).map f).getD k 0 = f k := by
  rw [List.getD_eq_getElem?_getD, List.getElem?_map, List.getElem?_range h]
  rfl

/-- The recurrence buffer of length `m + 1` (for `m ≥ 1`) holds exactly the
Chebyshev basis values `T_0, ..., T_m` at the scaled abscissa. -/
theorem recurrence_buffer_eq (xs : ℚ) (m : ℕ) (hm : 1 ≤ m) :
    recurrence_buffer xs m = (List.range (m + 1)).map (chebT xs) := by
  induction m with
  | zero => omega
  | succ n ih =>
    by_cases hn : 1 ≤ n
    · have hstep : n + 1 - 1 = (n - 1) + 1 := by omega
      unfold recurrence_buffer at ih ⊢
      rw [hstep, List.range'_concat, List.foldl_append, List.foldl_cons, List.foldl_nil, ih hn]
      have h1n : 1 + 1 * (n - 1) = n := by omega
      rw [h1n]
      have e1 : ((List.range (n + 1)).map (chebT xs)).getD n 0 = chebT xs n :=
        getD_map_range _ _ _ (by omega)
      have e2 : ((List.range (n + 1)).map (chebT xs)).getD (n - 1) 0 = chebT xs (n - 1) :=
        getD_map_range _ _ _ (by omega)
      rw [e1, e2, List.range_succ (n := n + 1), List.map_append]
      congr 1
      obtain ⟨p, hp⟩ : ∃ p, n = p + 1 := ⟨n - 1, by omega⟩
      subst hp
      simp [chebT]
    · have hn0 : n = 0 := by omega
      subst hn0
      unfold recurrence_buffer
      simp [List.range', List.range_succ, chebT]

/-- The dot product of a coefficient list with the mapped range is the
corresponding finite sum. -/
theorem dot_map_range (c : List ℚ) (f : ℕ → ℚ) :
    dot c ((List.range c.length).map f)
      = ∑ k in Finset.range c.length, c.getD k 0 * f k := by
  induction c generalizing f with
  | nil => simp [dot]
  | cons a t ih =>
    have hlen : (a :: t).length = t.length + 1 := rfl
    rw [hlen, List.range_succ_eq_map, List.map_cons, List.map_map]
    show dot (a :: t) (f 0 :: (List.range t.length).map (f ∘ Nat.succ)) = _
    have hd : dot (a :: t) (f 0 :: (List.range t.length).map (f ∘ Nat.succ))
        = a * f 0 + dot t ((List.range t.length).map (f ∘ Nat.succ)) := by
      simp [dot]
    rw [hd, ih (f ∘ Nat.succ), Finset.sum_range_succ']
    simp [Function.comp]
    ring

/-- The Clenshaw pair against a coefficient suffix sums the seeded Chebyshev
recurrence: the classical Clenshaw invariant. -/
theorem clpair_invariant (xs : ℚ) (cs : List ℚ) (t0 t1 : ℚ) :
    ∑ k in Finset.range cs.length, cs.getD k 0 * chebSeq xs t0 t1 k
      = (clpair xs cs).1 * t0 + (clpair xs cs).2 * (t1 - 2 * xs * t0) := by
  induction cs generalizing t0 t1 with
  | nil => simp [clpair]
  | cons ck rest ih =>
    have hlen : (ck :: rest).length = rest.length + 1 := rfl
    rw [hlen, Finset.sum_range_succ']
    have hshift : ∀ k, chebSeq xs t0 t1 (k + 1) = chebSeq xs t1 (2 * xs * t1 - t0) k :=
      fun k => rfl
    have hgetD : ∀ k, (ck :: rest).getD (k + 1) 0 = rest.getD k 0 := fun k => rfl
    calc (∑ k in Finset.range rest.length,
            (ck :: rest).getD (k + 1) 0 * chebSeq xs t0 t1 (k + 1))
          + (ck :: rest).getD 0 0 * chebSeq xs t0 t1 0
        = (∑ k in Finset.range rest.length,
            rest.getD k 0 * chebSeq xs t1 (2 * xs * t1 - t0) k) + ck * t0 := by
          apply congrArg₂ (· + ·)
          · apply Finset.sum_congr rfl
            intro k _
            rw [hgetD k, hshift k]
          · rfl
      _ = ((clpair xs rest).1 * t1
            + (clpair xs rest).2 * ((2 * xs * t1 - t0) - 2 * xs * t1)) + ck * t0 := by
          rw [ih]
      _ = (clpair xs (ck :: rest)).1 * t0 + (clpair xs (ck :: rest)).2 * (t1 - 2 * xs * t0) := by
          show _ = (2 * xs * (clpair xs rest).1 - (clpair xs rest).2 + ck) * t0
            + (clpair xs rest).1 * (t1 - 2 * xs * t0)
          ring

/-- The seeded sequence satisfies the Chebyshev three-term recurrence. -/
theorem chebSeq_rec (xs : ℚ) (t0 t1 : ℚ) (n : ℕ) :
    chebSeq xs t0 t1 (n + 2) = 2 * xs * chebSeq xs t0 t1 (n + 1) - chebSeq xs t0 t1 n := by
  induction n generalizing t0 t1 with
  | zero => rfl
  | succ m ih =>
    show chebSeq xs t1 (2 * xs * t1 - t0) (m + 2) = _
    rw [ih t1 (2 * xs * t1 - t0)]
    rfl

/-- `chebT` is the seeded sequence started at `1, xs`. -/
theorem chebT_eq_chebSeq (xs : ℚ) : ∀ k, chebT xs k = chebSeq xs 1 xs k := by
  have key : ∀ k, chebT xs k = chebSeq xs 1 xs k ∧ chebT xs (k + 1) = chebSeq xs 1 xs (k + 1) := by
    intro k
    induction k with
    | zero => exact ⟨rfl, rfl⟩
    | succ m ih =>
      refine ⟨ih.2, ?_⟩
      show chebT xs (m + 2) = _
      rw [chebSeq_rec]
      show 2 * xs * chebT xs (m + 1) - chebT xs m = _
      rw [ih.1, ih.2]
  exact fun k => (key k).1

/-- Correctness of the Clenshaw backward recurrence: it evaluates the
canonical Chebyshev-basis sum. -/
theorem clenshaw_eq_chebSum (xs : ℚ) (cs : List ℚ) :
    (clpair xs cs).1 - xs * (clpair xs cs).2 = chebSum cs xs := by
  unfold chebSum
  have h1 : ∑ k in Finset.range cs.length, cs.getD k 0 * chebT xs k
      = ∑ k in Finset.range cs.length, cs.getD k 0 * chebSeq xs 1 xs k := by
    apply Finset.sum_congr rfl
    intro k _
    rw [chebT_eq_chebSeq]
  rw [h1, clpair_invariant]
  ring

/-- Dotting the coefficients with the recurrence buffer at a canonical
abscissa computes the canonical Chebyshev-basis sum. -/
theorem dot_buffer_eq_chebSum (c : List ℚ) (s : ℚ) (hlen : 2 ≤ c.length) :
    dot c (recurrence_buffer s (c.length - 1)) = chebSum c s := by
  rw [recurrence_buffer_eq s (c.length - 1) (by omega)]
  have h1 : c.length - 1 + 1 = c.length := by omega
  rw [h1]
  exact dot_map_range c (chebT s)

/-- Claim C5 (counterexample).  For the constant expansion `[1]` on `[0, 10]`
the claimed equality fails at `x = 1/2`: the scalar and batched recurrence
evaluators perform the unguarded out-of-bounds buffer write of claim C6
(`o(1)` on a length-1 buffer; `A.col(1)` on a 1-column matrix) and so have no
defined value (`none`), while the canonical-basis sum at the scaled abscissa
is `1`. -/
theorem C5_counterexample :
    (mkExpansion [1] 0 10).y (1/2) = none
      ∧ (mkExpansion [1] 0 10).yVec [1/2] = none
      ∧ chebSum (mkExpansion [1] 0 10).c
          (xscale (mkExpansion [1] 0 10).xmin (mkExpansion [1] 0 10).xmax (1/2)) = 1
      ∧ ¬ (mkExpansion [1] 0 10).y (1/2)
          = some (chebSum (mkExpansion [1] 0 10).c
              (xscale (mkExpansion [1] 0 10).xmin (mkExpansion [1] 0 10).xmax (1/2))) := by
  refine ⟨rfl, rfl, ?_, ?_⟩
  · show chebSum [1] _ = 1
    simp [chebSum, chebT]
  · have h0 : (mkExpansion [1] 0 10).y (1/2) = none := rfl
    rw [h0]
    simp

/-- Claim C5 (amended: restricted to coefficient length `≥ 2`, the cases in
which the source's recurrence evaluators have defined behavior — for a
constant expansion they instead perform the out-of-bounds write of the
counterexample).  Every evaluation routine first maps its input through the
affine scaling `xscaled = (2x - (xmax+xmin))/(xmax-xmin)` and then evaluates
the canonical Chebyshev-basis sum at `xscaled`: this holds for the scalar
recurrence evaluator `y`, for the batched evaluator `y(vectype)` (which maps
every abscissa through the same affine map element-wise), and for the
(spec-modelled) Clenshaw evaluator, which needs no length restriction; and
every value returned by the root routine `real_roots` is the image of an
eigenvalue's real part under the inverse map
`x = ((xmax-xmin)*xscaled + (xmax+xmin))/2`. -/
theorem C5_affine_rescaling (e : ChebyshevExpansion) (x : ℚ) (xs : List ℚ)
    (eig : List (ℚ × ℚ)) (b : Bool) (hlen : 2 ≤ e.c.length) :
    e.y x = some (chebSum e.c (xscale e.xmin e.xmax x))
      ∧ e.yVec xs = some (xs.map (fun t => chebSum e.c (xscale e.xmin e.xmax t)))
      ∧ e.y_Clenshaw x = chebSum e.c (xscale e.xmin e.xmax x)
      ∧ ∀ r ∈ real_roots eig e.xmin e.xmax b, ∃ ev ∈ eig, r = xinv e.xmin e.xmax ev.1 := by
  refine ⟨?_, ?_, ?_, ?_⟩
  · show (if e.c.length - 1 = 0 then none
        else some (dot e.c (recurrence_buffer
          ((2 * x - (e.xmax + e.xmin)) / (e.xmax - e.xmin)) (e.c.length - 1)))) = _
    rw [if_neg (by omega)]
    rw [dot_buffer_eq_chebSum e.c _ hlen]
    rfl
  · show (if e.c.length - 1 = 0 then none
        else some ((xs.map (fun t => (2 * t - (e.xmax + e.xmin)) / (e.xmax - e.xmin))).map
          (fun s => dot e.c (recurrence_buffer s (e.c.length - 1))))) = _
    rw [if_neg (by omega)]
    refine congrArg some ?_
    rw [List.map_map]
    apply List.map_congr_left
    intro t _
    show dot e.c (recurrence_buffer ((2 * t - (e.xmax + e.xmin)) / (e.xmax - e.xmin))
      (e.c.length - 1)) = _
    rw [dot_buffer_eq_chebSum e.c _ hlen]
    rfl
  · show (clpair ((2 * x - (e.xmax + e.xmin)) / (e.xmax - e.xmin)) e.c).1
        - ((2 * x - (e.xmax + e.xmin)) / (e.xmax - e.xmin))
          * (clpair ((2 * x - (e.xmax + e.xmin)) / (e.xmax - e.xmin)) e.c).2 = _
    rw [clenshaw_eq_chebSum]
    rfl
  · intro r hr
    have hp := real_roots_pipeline eig e.xmin e.xmax
    cases b with
    | false =>
      rw [hp.2] at hr
      obtain ⟨ev, hev, hfr⟩ := List.mem_map.1 hr
      exact ⟨ev, List.mem_of_mem_filter hev, hfr.symm⟩
    | true =>
      rw [hp.1] at hr
      have hr2 := List.mem_of_mem_filter hr
      obtain ⟨ev, hev, hfr⟩ := List.mem_map.1 hr2
      exact ⟨ev, List.mem_of_mem_filter hev, hfr.symm⟩

/-- Witness for (amended) claim C5 at the concrete expansion `[1, 2, 3]` on
`[0, 2]`, scalar input `1`, batch `[0, 2]`, eigenvalue list `[(1, 0)]`. -/
theorem C5_witness :
    (mkExpansion [1, 2, 3] 0 2).y 1
        = some (chebSum (mkExpansion [1, 2, 3] 0 2).c
            (xscale (mkExpansion [1, 2, 3] 0 2).xmin (mkExpansion [1, 2, 3] 0 2).xmax 1))
      ∧ (mkExpansion [1, 2, 3] 0 2).yVec [0, 2]
          = some ([0, 2].map (fun t => chebSum (mkExpansion [1, 2, 3] 0 2).c
              (xscale (mkExpansion [1, 2, 3] 0 2).xmin (mkExpansion [1, 2, 3] 0 2).xmax t)))
      ∧ (mkExpansion [1, 2, 3] 0 2).y_Clenshaw 1
          = chebSum (mkExpansion [1, 2, 3] 0 2).c
              (xscale (mkExpansion [1, 2, 3] 0 2).xmin (mkExpansion [1, 2, 3] 0 2).xmax 1)
      ∧ ∀ r ∈ real_roots [(1, 0)] (mkExpansion [1, 2, 3] 0 2).xmin
            (mkExpansion [1, 2, 3] 0 2).xmax true,
          ∃ ev ∈ [((1 : ℚ), (0 : ℚ))],
            r = xinv (mkExpansion [1, 2, 3] 0 2).xmin (mkExpansion [1, 2, 3] 0 2).xmax ev.1 :=
  C5_affine_rescaling (mkExpansion [1, 2, 3] 0 2) 1 [0, 2] [(1, 0)] true (by decide)
